/-
Verification of the Multi-armed-bandit repository
(bandit_algorithms.py and simulation.py) against its
natural-language specification.

The Python code is shallowly embedded: numpy float arrays become
`List ℚ` (or functions out of `Fin n`), exact rational arithmetic
standing in for IEEE doubles; numpy fancy indexing (negative wrap,
IndexError) is modelled explicitly; calls that can raise return
`Except PyErr _`; randomness and the transcendental helpers
(sqrt, log, the Beta quantile) are passed in as explicit parameters,
since the properties verified here hold for every choice of them.
-/
import Mathlib

namespace MAB

/-- Python/numpy exceptions that the embedded code can raise. -/
inductive PyErr where
  | indexError
  | linAlgError
  | valueError
  deriving DecidableEq, Repr

instance exceptDecEq {ε α : Type} [DecidableEq ε] [DecidableEq α] :
    DecidableEq (Except ε α) := fun x y =>
  match x, y with
  | .ok a, .ok b =>
    if h : a = b then isTrue (by rw [h])
    else isFalse (by intro hh; cases hh; exact h rfl)
  | .error a, .error b =>
    if h : a = b then isTrue (by rw [h])
    else isFalse (by intro hh; cases hh; exact h rfl)
  | .ok _, .error _ => isFalse (by intro hh; cases hh)
  | .error _, .ok _ => isFalse (by intro hh; cases hh)

/-- numpy 1-d array indexing with a Python integer: indices in
`[-n, n)` are accepted (negative ones wrap around, `a[-k] = a[n-k]`),
anything else raises `IndexError`. -/
def npIndex (n : Nat) (i : Int) : Except PyErr Nat :=
  if i < 0 then
    if -i ≤ (n : Int) then Except.ok (Int.toNat (i + n)) else Except.error PyErr.indexError
  else
    if i < (n : Int) then Except.ok i.toNat else Except.error PyErr.indexError

/-- Maximum of a list of rationals (`np.max`); 0 on the empty list,
which the sources never hit. -/
def listMax : List ℚ → ℚ
  | [] => 0
  | x :: xs => xs.foldl max x

/-- `np.argmax`: index of the first occurrence of the maximum. -/
def argmaxFirst (l : List ℚ) : Nat :=
  l.findIdx (fun x => x == listMax l)

/-- `np.cumsum` with explicit accumulator. -/
def cumsumFrom (acc : ℚ) : List ℚ → List ℚ
  | [] => []
  | x :: xs => (acc + x) :: cumsumFrom (acc + x) xs

/-- `np.cumsum`: list of partial sums. -/
def cumsum (l : List ℚ) : List ℚ := cumsumFrom 0 l

theorem listMax_le_of_forall_le {l : List ℚ} {x b : ℚ}
    (hx : x ∈ l) (h : ∀ y ∈ l, y ≤ b) : x ≤ b := h x hx

theorem foldl_max_le_iff (xs : List ℚ) (a b : ℚ) :
    xs.foldl max a ≤ b ↔ a ≤ b ∧ ∀ y ∈ xs, y ≤ b := by
  induction xs generalizing a with
  | nil => simp
  | cons x xs ih =>
    simp only [List.foldl_cons, ih, max_le_iff, List.mem_cons]
    constructor
    · rintro ⟨⟨h1, h2⟩, h3⟩
      exact ⟨h1, fun y hy => hy.elim (fun e => e ▸ h2) (h3 y)⟩
    · rintro ⟨h1, h2⟩
      exact ⟨⟨h1, h2 x (Or.inl rfl)⟩, fun y hy => h2 y (Or.inr hy)⟩

theorem le_foldl_max (xs : List ℚ) (a : ℚ) : a ≤ xs.foldl max a := by
  induction xs generalizing a with
  | nil => simp
  | cons x xs ih => exact le_trans (le_max_left a x) (ih (max a x))

theorem mem_le_foldl_max (xs : List ℚ) (a : ℚ) {y : ℚ} (hy : y ∈ xs) :
    y ≤ xs.foldl max a := by
  induction xs generalizing a with
  | nil => cases hy
  | cons x xs ih =>
    rcases List.mem_cons.mp hy with h | h
    · subst h
      exact le_trans (le_max_right a y) (le_foldl_max xs (max a y))
    · exact ih (max a x) h

/-- Every member of a list is at most its `listMax`. -/
theorem le_listMax {l : List ℚ} {y : ℚ} (hy : y ∈ l) : y ≤ listMax l := by
  cases l with
  | nil => cases hy
  | cons x xs =>
    rcases List.mem_cons.mp hy with h | h
    · subst h; exact le_foldl_max xs y
    · exact mem_le_foldl_max xs x h

theorem foldl_max_mem (xs : List ℚ) (a : ℚ) : xs.foldl max a = a ∨ xs.foldl max a ∈ xs := by
  induction xs generalizing a with
  | nil => left; rfl
  | cons x xs ih =>
    simp only [List.foldl_cons]
    rcases ih (max a x) with h | h
    · rcases max_cases a x with ⟨he, _⟩ | ⟨he, _⟩
      · left; rw [h, he]
      · right; rw [h, he]; exact List.mem_cons_self x xs
    · right; exact List.mem_cons_of_mem x h

/-- On a nonempty list, `listMax` is attained. -/
theorem listMax_mem {l : List ℚ} (h : l ≠ []) : listMax l ∈ l := by
  cases l with
  | nil => exact absurd rfl h
  | cons x xs =>
    rcases foldl_max_mem xs x with h1 | h1
    · rw [listMax, h1]; exact List.mem_cons_self x xs
    · exact List.mem_cons_of_mem x h1

theorem findIdx_getD_of_exists {l : List ℚ} {p : ℚ → Bool}
    (h : ∃ x ∈ l, p x) : p (l.getD (l.findIdx p) 0) = true := by
  induction l with
  | nil => obtain ⟨x, hx, _⟩ := h; cases hx
  | cons a xs ih =>
    rw [List.findIdx_cons]
    by_cases hp : p a
    · simp [hp]
    · obtain ⟨x, hx, hpx⟩ := h
      rcases List.mem_cons.mp hx with h1 | h1
      · exact absurd (h1 ▸ hpx) hp
      · simp only [hp, cond_false]
        simpa using ih ⟨x, h1, hpx⟩

/-- The entry at `argmaxFirst l` is `listMax l` (for nonempty `l`). -/
theorem getD_argmaxFirst {l : List ℚ} (h : l ≠ []) :
    l.getD (argmaxFirst l) 0 = listMax l := by
  have := findIdx_getD_of_exists (l := l) (p := fun x => x == listMax l)
    ⟨listMax l, listMax_mem h, by simp⟩
  simpa [argmaxFirst] using this

/-!
## NewsEnvironment (simulation.py)

The constructor draws `true_ctrs` from a Beta distribution; for the
claims only the resulting array of per-arm true rates matters, so an
environment is that array.  `optimal_arm = np.argmax(true_ctrs)` and
`optimal_ctr = true_ctrs[optimal_arm]`.
-/

structure NewsEnvironment where
  true_ctrs : List ℚ

/-- `n_articles`: the number of arms of the environment. -/
def NewsEnvironment.n_articles (env : NewsEnvironment) : Nat :=
  env.true_ctrs.length

/-- `self.optimal_arm = np.argmax(self.true_ctrs)`. -/
def NewsEnvironment.optimal_arm (env : NewsEnvironment) : Nat :=
  argmaxFirst env.true_ctrs

/-- `self.optimal_ctr = self.true_ctrs[self.optimal_arm]`. -/
def NewsEnvironment.optimal_ctr (env : NewsEnvironment) : ℚ :=
  env.true_ctrs.getD env.optimal_arm 0

/-- `pull_arm`: numpy-index into `true_ctrs`, then return a Bernoulli
draw; the uniform draw `u` of `np.random.random()` is an explicit
parameter. -/
def NewsEnvironment.pull_arm (env : NewsEnvironment) (arm : Int) (u : ℚ) :
    Except PyErr ℚ := do
  let i ← npIndex env.true_ctrs.length arm
  let click_prob := env.true_ctrs.getD i 0
  return if u < click_prob then 1 else 0

/-- `calculate_regret`: per-round instantaneous regret
`optimal_ctr - true_ctrs[arm]`, then `np.cumsum`.  Arm histories are
taken with in-range indices (the simulation loop only records arms the
policies returned, all in `[0, nArms)`). -/
def NewsEnvironment.calculate_regret (env : NewsEnvironment)
    (arm_history : List Nat) : List ℚ :=
  cumsum (arm_history.map (fun arm => env.optimal_ctr - env.true_ctrs.getD arm 0))

theorem optimal_ctr_eq_listMax {env : NewsEnvironment}
    (h : env.true_ctrs ≠ []) : env.optimal_ctr = listMax env.true_ctrs :=
  getD_argmaxFirst h

theorem cumsumFrom_length (acc : ℚ) (l : List ℚ) :
    (cumsumFrom acc l).length = l.length := by
  induction l generalizing acc with
  | nil => rfl
  | cons x xs ih => simp [cumsumFrom, ih]

theorem cumsumFrom_getD (acc : ℚ) (l : List ℚ) (i : Nat) (hi : i < l.length) :
    (cumsumFrom acc l).getD i 0 = acc + (List.take (i + 1) l).sum := by
  induction l generalizing acc i with
  | nil => cases hi
  | cons x xs ih =>
    cases i with
    | zero => simp [cumsumFrom]
    | succ j =>
      have hj : j < xs.length := Nat.lt_of_succ_lt_succ hi
      simp only [cumsumFrom, List.getD_cons_succ, List.take_succ_cons, List.sum_cons]
      rw [ih (acc + x) j hj]
      ring

theorem take_sum_nonneg {l : List ℚ} (h : ∀ x ∈ l, 0 ≤ x) (k : Nat) :
    0 ≤ (List.take k l).sum :=
  List.sum_nonneg (fun x hx => h x (List.mem_of_mem_take hx))

theorem take_sum_mono {l : List ℚ} (h : ∀ x ∈ l, 0 ≤ x) (i j : Nat) (hij : i ≤ j) :
    (List.take i l).sum ≤ (List.take j l).sum := by
  induction l generalizing i j with
  | nil => simp
  | cons x xs ih =>
    cases i with
    | zero =>
      simp only [List.take_zero, List.sum_nil]
      exact take_sum_nonneg h j
    | succ i' =>
      cases j with
      | zero => cases hij
      | succ j' =>
        simp only [List.take_succ_cons, List.sum_cons]
        have := ih (fun y hy => h y (List.mem_cons_of_mem x hy)) i' j'
          (Nat.le_of_succ_le_succ hij)
        linarith

theorem take_sum_eq_zero_iff {l : List ℚ} (h : ∀ x ∈ l, 0 ≤ x) :
    (∀ i < l.length, (List.take (i + 1) l).sum = 0) ↔ ∀ x ∈ l, x = 0 := by
  constructor
  · intro hz x hx
    induction l with
    | nil => cases hx
    | cons a xs ih =>
      rcases List.mem_cons.mp hx with h1 | h1
      · subst h1
        have h0 := hz 0 (Nat.succ_pos _)
        simp only [List.take_succ_cons, List.take_zero, List.sum_cons, List.sum_nil,
          add_zero] at h0
        exact h0
      · refine ih (fun y hy => h y (List.mem_cons_of_mem a hy)) ?_ h1
        intro i hi
        have ha : a = 0 := by
          have h0 := hz 0 (Nat.succ_pos _)
          simpa using h0
        have h1' := hz (i + 1) (by simpa using Nat.succ_lt_succ hi)
        simp only [List.take_succ_cons, List.sum_cons, ha, zero_add] at h1'
        exact h1'
  · intro hz i _
    have : ∀ x ∈ List.take (i + 1) l, x = 0 :=
      fun x hx => hz x (List.mem_of_mem_take hx)
    exact List.sum_eq_zero this

theorem getD_mem {l : List ℚ} {a : Nat} (h : a < l.length) : l.getD a 0 ∈ l := by
  rw [List.getD_eq_getElem l 0 h]
  exact List.getElem_mem h

theorem regret_term_nonneg {env : NewsEnvironment} (hne : env.true_ctrs ≠ [])
    {a : Nat} (ha : a < env.true_ctrs.length) :
    0 ≤ env.optimal_ctr - env.true_ctrs.getD a 0 := by
  rw [optimal_ctr_eq_listMax hne]
  have := le_listMax (getD_mem ha)
  linarith

/-- C1 (amended): for every environment with at least one arm and every
in-range arm sequence, the cumulative regret returned by
`calculate_regret` is non-negative and non-decreasing in the round
index, and it is identically zero at every round if and only if every
selected arm's true success rate equals the optimal rate.  (Equality of
the selected arm's *rate* with the optimal rate — not equality of the
arm *index* with `optimal_arm` — is the correct right-hand side: when
several arms tie for the best rate, pulling a non-optimal-index arm
with the maximal rate also yields zero regret.) -/
theorem C1_calculate_regret_amended (env : NewsEnvironment) (arms : List Nat)
    (hne : env.true_ctrs ≠ [])
    (hv : ∀ a ∈ arms, a < env.true_ctrs.length) :
    (∀ i, i < (env.calculate_regret arms).length →
        0 ≤ (env.calculate_regret arms).getD i 0) ∧
    (∀ i, i + 1 < (env.calculate_regret arms).length →
        (env.calculate_regret arms).getD i 0 ≤
          (env.calculate_regret arms).getD (i + 1) 0) ∧
    ((∀ i, i < (env.calculate_regret arms).length →
        (env.calculate_regret arms).getD i 0 = 0) ↔
      ∀ a ∈ arms, env.true_ctrs.getD a 0 = env.optimal_ctr) := by
  set terms : List ℚ :=
    arms.map (fun arm => env.optimal_ctr - env.true_ctrs.getD arm 0) with hterms
  have hlen : (env.calculate_regret arms).length = terms.length := by
    simp [NewsEnvironment.calculate_regret, cumsum, cumsumFrom_length, hterms]
  have hnn : ∀ x ∈ terms, 0 ≤ x := by
    intro x hx
    rw [hterms] at hx
    obtain ⟨a, ha, rfl⟩ := List.mem_map.mp hx
    exact regret_term_nonneg hne (hv a ha)
  have hget : ∀ i, i < terms.length →
      (env.calculate_regret arms).getD i 0 = (List.take (i + 1) terms).sum := by
    intro i hi
    have := cumsumFrom_getD 0 terms i hi
    simpa [NewsEnvironment.calculate_regret, cumsum, hterms] using this
  refine ⟨?_, ?_, ?_⟩
  · intro i hi
    rw [hlen] at hi
    rw [hget i hi]
    exact take_sum_nonneg hnn _
  · intro i hi
    rw [hlen] at hi
    rw [hget i (Nat.lt_of_succ_lt hi), hget (i + 1) hi]
    exact take_sum_mono hnn _ _ (Nat.le_succ _)
  · have hiff := take_sum_eq_zero_iff hnn
    constructor
    · intro hz a ha
      have hall : ∀ x ∈ terms, x = 0 := by
        refine hiff.mp ?_
        intro i hi
        rw [← hget i hi]
        exact hz i (hlen ▸ hi)
      have hx : env.optimal_ctr - env.true_ctrs.getD a 0 ∈ terms := by
        rw [hterms]
        exact List.mem_map.mpr ⟨a, ha, rfl⟩
      have := hall _ hx
      linarith
    · intro hz i hi
      rw [hlen] at hi
      rw [hget i hi]
      refine hiff.mpr ?_ i hi
      intro x hx
      rw [hterms] at hx
      obtain ⟨a, ha, rfl⟩ := List.mem_map.mp hx
      rw [hz a ha]
      ring

/-- C1, counterexample to the claim as stated: in the two-arm
environment with tied true rates `[3/10, 3/10]`, the history `[1]`
has identically-zero cumulative regret although the selected arm `1`
is not the environment's `optimal_arm` (which is `0`). -/
theorem C1_counterexample :
    NewsEnvironment.calculate_regret ⟨[3/10, 3/10]⟩ [1] = [0] ∧
    NewsEnvironment.optimal_arm ⟨[3/10, 3/10]⟩ = 0 ∧ (1 : Nat) ≠ 0 := by
  refine ⟨?_, ?_, one_ne_zero⟩
  · show cumsum [NewsEnvironment.optimal_ctr ⟨[3/10, 3/10]⟩ - 3/10] = [0]
    have h : NewsEnvironment.optimal_ctr ⟨[3/10, 3/10]⟩ = 3/10 := by
      rw [optimal_ctr_eq_listMax (by simp)]
      simp [listMax]
    rw [h]
    norm_num [cumsum, cumsumFrom]
  · show argmaxFirst [3/10, 3/10] = 0
    have h : listMax [3/10, 3/10] = 3/10 := by simp [listMax]
    simp [argmaxFirst, h, List.findIdx_cons]

/-- C1, witness: `C1_calculate_regret_amended` applied to the concrete
environment `[1/2, 1/4]` and history `[1, 0]`. -/
theorem C1_witness :
    0 ≤ (NewsEnvironment.calculate_regret ⟨[1/2, 1/4]⟩ [1, 0]).getD 0 0 ∧
    ((∀ i, i < (NewsEnvironment.calculate_regret ⟨[1/2, 1/4]⟩ [1, 0]).length →
        (NewsEnvironment.calculate_regret ⟨[1/2, 1/4]⟩ [1, 0]).getD i 0 = 0) ↔
      ∀ a ∈ [1, 0], ([(1 : ℚ)/2, 1/4]).getD a 0 =
        NewsEnvironment.optimal_ctr ⟨[1/2, 1/4]⟩) := by
  have h := C1_calculate_regret_amended ⟨[1/2, 1/4]⟩ [1, 0]
    (by simp) (by intro a ha; fin_cases ha <;> simp)
  refine ⟨?_, h.2.2⟩
  refine h.1 0 ?_
  show 0 < (cumsum (List.map _ [1, 0])).length
  simp [cumsum, cumsumFrom_length]

/-!
## BanditAlgorithm base class (bandit_algorithms.py)

Shared state of the non-contextual policies: numpy arrays `counts` and
`values`, the scalar totals, and the two history lists.  `arm_history`
stores the arm argument as passed (a Python int, possibly negative),
so it is a `List Int`.
-/

structure BanditState where
  n_arms : Nat
  counts : List ℚ
  values : List ℚ
  total_pulls : Nat
  total_reward : ℚ
  rewards_history : List ℚ
  arm_history : List Int
  deriving DecidableEq, Repr

/-- `BanditAlgorithm.__init__`. -/
def initB (n : Nat) : BanditState :=
  ⟨n, List.replicate n 0, List.replicate n 0, 0, 0, [], []⟩

/-- `BanditAlgorithm.update` for an in-range arm index: increment the
arm's count and the totals, then apply the incremental-average update
`values[arm] = ((n - 1) / n) * value + (1 / n) * reward` with `n` the
updated count, and append to both histories. -/
def update (s : BanditState) (arm : Nat) (reward : ℚ) : BanditState :=
  let n : ℚ := s.counts.getD arm 0 + 1
  { s with
    counts := s.counts.set arm n
    values := s.values.set arm (((n - 1) / n) * s.values.getD arm 0 + (1 / n) * reward)
    total_pulls := s.total_pulls + 1
    total_reward := s.total_reward + reward
    rewards_history := s.rewards_history ++ [reward]
    arm_history := s.arm_history ++ [(arm : Int)] }

/-- `BanditAlgorithm.update` with a raw Python integer arm index:
`self.counts[arm] += 1` applies numpy indexing, so the index is
resolved (or rejected) by `npIndex` first; on success the recorded
history keeps the index as passed. -/
def update_checked (s : BanditState) (arm : Int) (reward : ℚ) :
    Except PyErr BanditState := do
  let i ← npIndex s.counts.length arm
  return { update s i reward with arm_history := s.arm_history ++ [arm] }

/-- `BanditAlgorithm.reset`. -/
def resetB (s : BanditState) : BanditState :=
  { s with
    counts := List.replicate s.n_arms 0
    values := List.replicate s.n_arms 0
    total_pulls := 0
    total_reward := 0
    rewards_history := []
    arm_history := [] }

/-- The `average_reward` field of `BanditAlgorithm.get_metrics`:
`total_reward / max(1, total_pulls)`. -/
def average_reward (s : BanditState) : ℚ :=
  s.total_reward / max 1 (s.total_pulls : ℚ)

/-- Run a sequence of `update(arm, reward)` calls. -/
def applyU (s : BanditState) (us : List (Nat × ℚ)) : BanditState :=
  us.foldl (fun t u => update t u.1 u.2) s

/-- Number of recorded updates that hit `arm`. -/
def countFor (arm : Nat) (us : List (Nat × ℚ)) : ℚ :=
  ((us.filter (fun u => u.1 == arm)).length : ℚ)

/-- Sum of the rewards recorded for `arm`. -/
def sumFor (arm : Nat) (us : List (Nat × ℚ)) : ℚ :=
  ((us.filter (fun u => u.1 == arm)).map Prod.snd).sum

theorem getD_set_self (l : List ℚ) (i : Nat) (h : i < l.length) (v : ℚ) :
    (l.set i v).getD i 0 = v := by
  rw [List.getD_eq_getElem _ 0 (by simpa using h)]
  simp [List.getElem_set]

theorem getD_set_other (l : List ℚ) (i j : Nat) (h : i ≠ j) (v : ℚ) :
    (l.set i v).getD j 0 = l.getD j 0 := by
  by_cases hj : j < l.length
  · rw [List.getD_eq_getElem _ 0 (by simpa using hj), List.getD_eq_getElem _ 0 hj]
    simp [List.getElem_set, h]
  · rw [List.getD_eq_default _ 0 (by simpa using Nat.le_of_not_lt hj),
      List.getD_eq_default _ 0 (by simpa using Nat.le_of_not_lt hj)]

theorem getD_replicate_zero (n arm : Nat) :
    (List.replicate n (0 : ℚ)).getD arm 0 = 0 := by
  by_cases h : arm < n
  · rw [List.getD_eq_getElem _ 0 (by simpa using h)]
    exact List.getElem_replicate 0 _
  · rw [List.getD_eq_default _ 0 (by simpa using Nat.le_of_not_lt h)]

theorem countFor_append (arm : Nat) (ys : List (Nat × ℚ)) (u : Nat × ℚ) :
    countFor arm (ys ++ [u]) = countFor arm ys + if u.1 = arm then 1 else 0 := by
  by_cases h : u.1 = arm
  · simp [countFor, List.filter_append, List.filter, h]
  · have hb : (u.1 == arm) = false := by simp [h]
    simp [countFor, List.filter_append, List.filter, hb, h]

theorem sumFor_append (arm : Nat) (ys : List (Nat × ℚ)) (u : Nat × ℚ) :
    sumFor arm (ys ++ [u]) = sumFor arm ys + if u.1 = arm then u.2 else 0 := by
  by_cases h : u.1 = arm
  · simp [sumFor, List.filter_append, List.filter, h]
  · have hb : (u.1 == arm) = false := by simp [h]
    simp [sumFor, List.filter_append, List.filter, hb, h]

theorem countFor_nonneg (arm : Nat) (us : List (Nat × ℚ)) : 0 ≤ countFor arm us := by
  simp [countFor]

theorem sumFor_eq_zero {arm : Nat} {us : List (Nat × ℚ)}
    (h : countFor arm us = 0) : sumFor arm us = 0 := by
  have : (us.filter (fun u => u.1 == arm)).length = 0 := by
    have := h
    simp only [countFor, Nat.cast_eq_zero] at this
    exact this
  rw [sumFor, List.length_eq_zero.mp this]
  simp

/-- The incremental-average step preserves the running mean: with
`c` previous pulls summing to `S` (and `S = 0` when `c = 0`), the
update formula applied to `S / c` yields `(S + r) / (c + 1)`. -/
theorem incremental_mean_step (c S r : ℚ) (hc : 0 ≤ c) (h0 : c = 0 → S = 0) :
    ((c + 1 - 1) / (c + 1)) * (S / c) + (1 / (c + 1)) * r = (S + r) / (c + 1) := by
  by_cases hc0 : c = 0
  · rw [hc0, h0 hc0]
    norm_num
  · have hn : c + 1 ≠ 0 := by positivity
    field_simp
    ring

/-- State invariant of a run of `update` calls from a fresh policy:
lengths are preserved, the totals track the update list, and each
arm's count and value estimate are its hit count and mean reward. -/
theorem applyU_inv (n : Nat) (us : List (Nat × ℚ)) (hv : ∀ u ∈ us, u.1 < n) :
    (applyU (initB n) us).n_arms = n ∧
    (applyU (initB n) us).counts.length = n ∧
    (applyU (initB n) us).values.length = n ∧
    (applyU (initB n) us).total_pulls = us.length ∧
    (applyU (initB n) us).total_reward = (us.map Prod.snd).sum ∧
    ∀ arm, arm < n →
      (applyU (initB n) us).counts.getD arm 0 = countFor arm us ∧
      (applyU (initB n) us).values.getD arm 0 = sumFor arm us / countFor arm us := by
  induction us using List.reverseRecOn with
  | nil =>
    refine ⟨rfl, by simp [applyU, initB], by simp [applyU, initB], rfl, rfl, ?_⟩
    intro arm ha
    constructor
    · simp [applyU, initB, countFor, getD_replicate_zero]
    · simp [applyU, initB, countFor, sumFor, getD_replicate_zero]
  | append_singleton ys u ih =>
    have hvys : ∀ v ∈ ys, v.1 < n := fun v hvm => hv v (List.mem_append_left _ hvm)
    have hu : u.1 < n := hv u (List.mem_append_right _ (List.mem_cons_self u []))
    obtain ⟨ihn, ihc, ihv, ihp, ihr, iharm⟩ := ih hvys
    have happ : applyU (initB n) (ys ++ [u]) =
        update (applyU (initB n) ys) u.1 u.2 := by
      simp [applyU, List.foldl_append]
    refine ⟨by rw [happ]; exact ihn, ?_, ?_, ?_, ?_, ?_⟩
    · rw [happ]; simpa [update] using ihc
    · rw [happ]; simpa [update] using ihv
    · rw [happ]; simp [update, ihp]
    · rw [happ]; simp [update, ihr]
    · intro arm ha
      obtain ⟨ihca, ihva⟩ := iharm arm ha
      have hcu := (iharm u.1 hu).1
      have hvu := (iharm u.1 hu).2
      by_cases he : u.1 = arm
      · subst he
        constructor
        · rw [happ]
          show ((applyU (initB n) ys).counts.set u.1 _).getD u.1 0 = _
          rw [getD_set_self _ _ (by rw [ihc]; exact hu), ihca, countFor_append]
          simp
        · rw [happ]
          show ((applyU (initB n) ys).values.set u.1 _).getD u.1 0 = _
          rw [getD_set_self _ _ (by rw [ihv]; exact hu), ihca, ihva,
            countFor_append, sumFor_append]
          simp only [if_pos rfl]
          exact incremental_mean_step (countFor u.1 ys) (sumFor u.1 ys) u.2
            (countFor_nonneg _ _) sumFor_eq_zero
      · constructor
        · rw [happ]
          show ((applyU (initB n) ys).counts.set u.1 _).getD arm 0 = _
          rw [getD_set_other _ _ _ he, ihca, countFor_append]
          simp [he]
        · rw [happ]
          show ((applyU (initB n) ys).values.set u.1 _).getD arm 0 = _
          rw [getD_set_other _ _ _ he, ihva, countFor_append, sumFor_append]
          simp [he]

/-- C6: starting from a fresh policy (and `reset` reproduces exactly
the fresh state), after any sequence of in-range `update(arm, reward)`
calls the value estimate of each arm is the exact arithmetic mean of
the rewards recorded for that arm (0 if the arm was never pulled,
via the `x / 0 = 0` convention of `ℚ`), and its count is the number
of updates that hit it: the incremental formula
`values[arm] = ((n-1)/n) * values[arm] + (1/n) * reward` preserves
the running-mean invariant at every step under exact arithmetic. -/
theorem C6_value_estimate_is_mean (n : Nat) (us : List (Nat × ℚ)) (arm : Nat)
    (s0 : BanditState) (hv : ∀ u ∈ us, u.1 < n) (ha : arm < n) :
    (applyU (initB n) us).values.getD arm 0 = sumFor arm us / countFor arm us ∧
    (applyU (initB n) us).counts.getD arm 0 = countFor arm us ∧
    (countFor arm us = 0 → (applyU (initB n) us).values.getD arm 0 = 0) ∧
    resetB s0 = initB s0.n_arms := by
  obtain ⟨-, -, -, -, -, harm⟩ := applyU_inv n us hv
  obtain ⟨hc, hval⟩ := harm arm ha
  refine ⟨hval, hc, ?_, rfl⟩
  intro h0
  rw [hval, h0, sumFor_eq_zero h0]
  norm_num

/-- C2 (amended): numpy array indexing governs both `pull_arm` and
`BanditAlgorithm.update`.  An arm index outside `[-n, n)` raises
`IndexError` (the spec's `InvalidArmError` does not exist anywhere in
the code), while an index in `[-n, 0)` is *silently accepted* with
Python wrap-around semantics (`a[arm]` is `a[n + arm]`), contradicting
"never silently ... accepted". -/
theorem C2_amended (env : NewsEnvironment) (s : BanditState) (arm : Int)
    (u reward : ℚ) :
    ((arm < -(env.n_articles : Int) ∨ (env.n_articles : Int) ≤ arm) →
      env.pull_arm arm u = Except.error PyErr.indexError) ∧
    ((-(env.n_articles : Int) ≤ arm ∧ arm < 0) →
      env.pull_arm arm u =
        Except.ok (if u < env.true_ctrs.getD (arm + env.n_articles).toNat 0
          then 1 else 0)) ∧
    ((arm < -(s.counts.length : Int) ∨ (s.counts.length : Int) ≤ arm) →
      update_checked s arm reward = Except.error PyErr.indexError) ∧
    ((-(s.counts.length : Int) ≤ arm ∧ arm < 0) →
      update_checked s arm reward =
        Except.ok { update s (arm + s.counts.length).toNat reward with
                    arm_history := s.arm_history ++ [arm] }) := by
  have npErr : ∀ (m : Nat), (arm < -(m : Int) ∨ (m : Int) ≤ arm) →
      npIndex m arm = Except.error PyErr.indexError := by
    intro m h
    unfold npIndex
    rcases h with h | h
    · have h1 : arm < 0 := by omega
      have h2 : ¬(-arm ≤ (m : Int)) := by omega
      simp [h1, h2]
    · have h1 : ¬arm < 0 := by omega
      have h2 : ¬(arm < (m : Int)) := by omega
      simp [h1, h2]
  have npNeg : ∀ (m : Nat), -(m : Int) ≤ arm → arm < 0 →
      npIndex m arm = Except.ok (arm + m).toNat := by
    intro m h1 h2
    unfold npIndex
    have h3 : -arm ≤ (m : Int) := by omega
    simp [h2, h3]
  refine ⟨?_, ?_, ?_, ?_⟩
  · intro h
    simp only [NewsEnvironment.pull_arm, NewsEnvironment.n_articles] at *
    rw [npErr _ h]
    rfl
  · rintro ⟨h1, h2⟩
    simp only [NewsEnvironment.pull_arm, NewsEnvironment.n_articles] at *
    rw [npNeg _ h1 h2]
    rfl
  · intro h
    simp only [update_checked]
    rw [npErr _ h]
    rfl
  · rintro ⟨h1, h2⟩
    simp only [update_checked]
    rw [npNeg _ h1 h2]
    rfl

/-- C2, counterexample to the claim as stated: the out-of-range index
`-1` is silently accepted by both `pull_arm` (it samples arm `n - 1`)
and `update` (it updates arm `n - 1`), instead of raising. -/
theorem C2_counterexample :
    NewsEnvironment.pull_arm ⟨[3/10, 1/10]⟩ (-1) 0 = Except.ok 1 ∧
    (update_checked (initB 2) (-1) 1).isOk = true := by
  constructor
  · have hnp : npIndex 2 (-1) = Except.ok 1 := by decide
    simp only [NewsEnvironment.pull_arm, List.length_cons, List.length_nil]
    rw [show ((0 : Nat) + 1 + 1) = 2 from rfl, hnp]
    norm_num [List.getD]
  · have hnp : npIndex 2 (-1) = Except.ok 1 := by decide
    have hlen : (initB 2).counts.length = 2 := by decide
    simp only [update_checked, hlen, hnp]
    rfl

/-- C2, witness: `C2_amended` applied at the out-of-range index `5`
(raising `IndexError`) and at the wrapped index `-1`. -/
theorem C2_witness :
    NewsEnvironment.pull_arm ⟨[1/2]⟩ 5 0 = Except.error PyErr.indexError ∧
    update_checked (initB 1) (-1) 1 =
      Except.ok { update (initB 1) 0 1 with arm_history := [(-1 : Int)] } := by
  constructor
  · exact (C2_amended ⟨[1/2]⟩ (initB 1) 5 0 1).1 (by right; norm_num [NewsEnvironment.n_articles])
  · have h := (C2_amended ⟨[1/2]⟩ (initB 1) (-1) 0 1).2.2.2
      ⟨by norm_num [initB], by norm_num⟩
    simpa [initB] using h

/-- C6, witness: `C6_value_estimate_is_mean` applied to the concrete
run `update(0,1); update(0,0); update(1,1)` on a fresh 2-arm policy. -/
theorem C6_witness :
    (applyU (initB 2) [(0, 1), (0, 0), (1, 1)]).values.getD 0 0 =
      sumFor 0 [(0, 1), (0, 0), (1, 1)] / countFor 0 [(0, 1), (0, 0), (1, 1)] ∧
    (applyU (initB 2) [(0, 1), (0, 0), (1, 1)]).counts.getD 0 0 =
      countFor 0 [(0, 1), (0, 0), (1, 1)] ∧
    (countFor 0 [(0, 1), (0, 0), (1, 1)] = 0 →
      (applyU (initB 2) [(0, 1), (0, 0), (1, 1)]).values.getD 0 0 = 0) ∧
    resetB (initB 3) = initB (initB 3).n_arms :=
  C6_value_estimate_is_mean 2 [(0, 1), (0, 0), (1, 1)] 0 (initB 3)
    (by decide) (by decide)

/-!
## UCB (bandit_algorithms.py)

`UCB` adds the exploration parameter `c` to the base state.  The
transcendental helpers `np.log` and `np.sqrt` and the uniform
tie-break of `np.random.choice` are explicit parameters: every
property proved below holds for all of them.
-/

structure UCB where
  toB : BanditState
  c : ℚ
  deriving DecidableEq, Repr

/-- `UCB.__init__`. -/
def initUCB (n : Nat) (c : ℚ) : UCB := ⟨initB n, c⟩

/-- `UCB.update` (inherited from the base class). -/
def uUpdate (u : UCB) (arm : Nat) (reward : ℚ) : UCB :=
  ⟨update u.toB arm reward, u.c⟩

/-- The initial loop of `UCB.select_arm`: the first arm (in index
order) whose pull count is zero, if any. -/
def firstUnpulled (s : BanditState) : Option Nat :=
  (List.range s.n_arms).find? (fun arm => s.counts.getD arm 0 == 0)

/-- `np.where(l == np.max(l))[0]`: all indices attaining the maximum. -/
def bestArms (l : List ℚ) : List Nat :=
  (List.range l.length).filter (fun i => l.getD i 0 == listMax l)

/-- The UCB scores computed by the second half of `UCB.select_arm`:
`values[arm] + c * sqrt(log(total_pulls) / counts[arm])`. -/
def ucbScores (u : UCB) (slog ssqrt : ℚ → ℚ) : List ℚ :=
  (List.range u.toB.n_arms).map (fun arm =>
    u.toB.values.getD arm 0 +
      u.c * ssqrt (slog (u.toB.total_pulls : ℚ) / u.toB.counts.getD arm 0))

/-- `UCB.select_arm`: return the lowest-indexed unpulled arm if one
exists, otherwise the highest-UCB arm with `tiebreak` standing in for
`np.random.choice` over the maximizers. -/
def UCB.select_arm (u : UCB) (tiebreak : List Nat → Nat)
    (slog ssqrt : ℚ → ℚ) : Nat :=
  match firstUnpulled u.toB with
  | some arm => arm
  | none => tiebreak (bestArms (ucbScores u slog ssqrt))

/-- A Python float that is either the numpy `inf` or a finite value;
return type of `get_ucb_values`. -/
inductive Fv where
  | inf
  | val (q : ℚ)
  deriving DecidableEq, Repr

/-- `UCB.get_ucb_values`: all zeros when nothing was pulled yet
(early return), otherwise `np.inf` for unpulled arms and the UCB score
for pulled ones. -/
def UCB.get_ucb_values (u : UCB) (slog ssqrt : ℚ → ℚ) : List Fv :=
  if u.toB.total_pulls = 0 then List.replicate u.toB.n_arms (Fv.val 0)
  else
    (List.range u.toB.n_arms).map (fun arm =>
      if u.toB.counts.getD arm 0 = 0 then Fv.inf
      else Fv.val (u.toB.values.getD arm 0 +
        u.c * ssqrt (slog (u.toB.total_pulls : ℚ) / u.toB.counts.getD arm 0)))

theorem getD_map_range {α : Type} {f : Nat → α} {n i : Nat} (h : i < n) (d : α) :
    ((List.range n).map f).getD i d = f i := by
  rw [List.getD_eq_getElem _ _ (by simpa using h)]
  simp

/-- C5 (amended): `get_ucb_values` returns `np.inf` at every unpulled
index only once at least one pull happened (`total_pulls ≠ 0`); in the
initial state with no pulls at all it instead takes the early-return
branch and yields all zeros. -/
theorem C5_get_ucb_values_amended (u : UCB) (slog ssqrt : ℚ → ℚ) :
    (u.toB.total_pulls ≠ 0 → ∀ arm, arm < u.toB.n_arms →
      u.toB.counts.getD arm 0 = 0 →
      (u.get_ucb_values slog ssqrt).getD arm (Fv.val 0) = Fv.inf) ∧
    (u.toB.total_pulls = 0 →
      u.get_ucb_values slog ssqrt = List.replicate u.toB.n_arms (Fv.val 0)) := by
  constructor
  · intro hp arm ha hc
    rw [UCB.get_ucb_values, if_neg hp, getD_map_range ha, if_pos hc]
  · intro hp
    rw [UCB.get_ucb_values, if_pos hp]

/-- C5, counterexample to the claim as stated: for a fresh two-arm UCB
policy (`total_pulls = 0`), `get_ucb_values` returns `[0, 0]`, not
`inf`, although arm 0 has pull count zero. -/
theorem C5_counterexample :
    UCB.get_ucb_values (initUCB 2 2) id id = [Fv.val 0, Fv.val 0] ∧
    (initUCB 2 2).toB.counts.getD 0 0 = 0 ∧
    Fv.val 0 ≠ Fv.inf := by
  refine ⟨?_, by decide, by decide⟩
  rw [UCB.get_ucb_values, if_pos (show (initUCB 2 2).toB.total_pulls = 0 from rfl)]
  rfl

/-- C5, witness: `C5_get_ucb_values_amended` applied to the state
reached after one `update(1, 1)` call, where arm 0 is still unpulled
and its UCB value is `inf`. -/
theorem C5_witness :
    (UCB.get_ucb_values (uUpdate (initUCB 2 2) 1 1) id id).getD 0 (Fv.val 0) =
      Fv.inf :=
  (C5_get_ucb_values_amended (uUpdate (initUCB 2 2) 1 1) id id).1
    (by decide) 0 (by decide) (by decide)

theorem find?_range'_eq_some {p : Nat → Bool} :
    ∀ (b a k : Nat), a ≤ k → k < a + b →
      (∀ i, a ≤ i → i < k → p i = false) → p k = true →
      (List.range' a b).find? p = some k := by
  intro b
  induction b with
  | zero => intro a k h1 h2 _ _; omega
  | succ b ih =>
    intro a k h1 h2 hb hk
    rw [show List.range' a (b + 1) = a :: List.range' (a + 1) b from rfl]
    by_cases hak : a = k
    · subst hak
      exact List.find?_cons_of_pos _ hk
    · have hfa : p a = false := hb a le_rfl (by omega)
      rw [List.find?_cons_of_neg _ (by simp [hfa])]
      exact ih (a + 1) k (by omega) (by omega)
        (fun i hi1 hi2 => hb i (by omega) hi2) hk

theorem find?_range_eq_some {n k : Nat} {p : Nat → Bool} (hk : k < n)
    (hb : ∀ i, i < k → p i = false) (hp : p k = true) :
    (List.range n).find? p = some k := by
  rw [List.range_eq_range']
  exact find?_range'_eq_some n 0 k (Nat.zero_le k) (by omega)
    (fun i _ h2 => hb i h2) hp

/-- If the first `k` arms have count 1 and the rest count 0, the
round-robin loop of `UCB.select_arm` finds arm `k`. -/
theorem firstUnpulled_of_counts {s : BanditState} {n k : Nat}
    (hn : s.n_arms = n) (hk : k < n)
    (hc : ∀ i, i < n → s.counts.getD i 0 = if i < k then 1 else 0) :
    firstUnpulled s = some k := by
  rw [firstUnpulled, hn]
  apply find?_range_eq_some hk
  · intro i hik
    have h := hc i (lt_trans hik hk)
    rw [if_pos hik] at h
    show (s.counts.getD i 0 == 0) = false
    rw [h]
    decide
  · have h := hc k hk
    rw [if_neg (lt_irrefl k)] at h
    show (s.counts.getD k 0 == 0) = true
    rw [h]
    decide

/-- The trajectory of the "called exactly nArms times with an update
of the selected arm between successive calls" experiment: state after
`k` rounds of select-then-update from a fresh UCB policy. -/
def traj (n : Nat) (c : ℚ) (tb : List Nat → Nat) (slog ssqrt : ℚ → ℚ)
    (rewards : Nat → ℚ) : Nat → UCB
  | 0 => initUCB n c
  | k + 1 =>
    uUpdate (traj n c tb slog ssqrt rewards k)
      ((traj n c tb slog ssqrt rewards k).select_arm tb slog ssqrt) (rewards k)

theorem traj_inv (n : Nat) (c : ℚ) (tb : List Nat → Nat)
    (slog ssqrt : ℚ → ℚ) (rewards : Nat → ℚ) :
    ∀ k, k ≤ n →
      (traj n c tb slog ssqrt rewards k).toB.n_arms = n ∧
      (traj n c tb slog ssqrt rewards k).toB.counts.length = n ∧
      (∀ i, i < n → (traj n c tb slog ssqrt rewards k).toB.counts.getD i 0 =
        if i < k then 1 else 0) := by
  intro k
  induction k with
  | zero =>
    intro _
    refine ⟨rfl, by simp [traj, initUCB, initB], ?_⟩
    intro i _
    simp [traj, initUCB, initB, getD_replicate_zero]
  | succ k ih =>
    intro hk1
    have hk : k < n := Nat.lt_of_succ_le hk1
    obtain ⟨ihn, ihl, ihc⟩ := ih (Nat.le_of_lt hk)
    have hfu : firstUnpulled (traj n c tb slog ssqrt rewards k).toB = some k :=
      firstUnpulled_of_counts ihn hk ihc
    have hsel : (traj n c tb slog ssqrt rewards k).select_arm tb slog ssqrt = k := by
      rw [UCB.select_arm, hfu]
    have hstep : traj n c tb slog ssqrt rewards (k + 1) =
        uUpdate (traj n c tb slog ssqrt rewards k) k (rewards k) := by
      rw [traj, hsel]
    refine ⟨?_, ?_, ?_⟩
    · rw [hstep]; exact ihn
    · rw [hstep]
      simpa [uUpdate, update] using ihl
    · intro i hi
      rw [hstep]
      show ((traj n c tb slog ssqrt rewards k).toB.counts.set k _).getD i 0 = _
      by_cases he : k = i
      · subst he
        rw [getD_set_self _ _ (by rw [ihl]; exact hk)]
        rw [ihc k hk, if_neg (lt_irrefl k), if_pos (Nat.lt_succ_self k)]
        norm_num
      · rw [getD_set_other _ _ _ he, ihc i hi]
        have : i < k ↔ i < k + 1 := by omega
        simp [this]

/-- C7: from a fresh UCB policy with `n` arms, calling `select_arm`
exactly `n` times with an update of the selected arm between
successive calls returns every arm exactly once, in increasing index
order (the selection at round `k` is arm `k`), and each of these
selections is produced by the unpulled-arm round-robin branch
(`firstUnpulled = some k`), before any bonus-based UCB comparison is
evaluated — for every exploration constant, reward sequence,
tie-break function, and log/sqrt implementation. -/
theorem C7_round_robin (n : Nat) (c : ℚ) (tb : List Nat → Nat)
    (slog ssqrt : ℚ → ℚ) (rewards : Nat → ℚ) :
    ((List.range n).map
      (fun k => (traj n c tb slog ssqrt rewards k).select_arm tb slog ssqrt) =
      List.range n) ∧
    (∀ k, k < n →
      firstUnpulled (traj n c tb slog ssqrt rewards k).toB = some k) := by
  have hfu : ∀ k, k < n →
      firstUnpulled (traj n c tb slog ssqrt rewards k).toB = some k := by
    intro k hk
    obtain ⟨ihn, _, ihc⟩ := traj_inv n c tb slog ssqrt rewards k (Nat.le_of_lt hk)
    exact firstUnpulled_of_counts ihn hk ihc
  refine ⟨?_, hfu⟩
  have : ∀ k ∈ List.range n,
      (traj n c tb slog ssqrt rewards k).select_arm tb slog ssqrt = id k := by
    intro k hk
    rw [UCB.select_arm, hfu k (List.mem_range.mp hk)]
    rfl
  rw [List.map_eq_map_iff.mpr this, List.map_id]

/-- C7, witness: the two-arm instance with constant reward 1 and
head-of-list tie-break; round 0 selects arm 0 through the round-robin
branch. -/
theorem C7_witness :
    ((List.range 2).map
      (fun k => (traj 2 2 (fun l => l.headD 0) id id (fun _ => 1) k).select_arm
        (fun l => l.headD 0) id id) = List.range 2) ∧
    firstUnpulled (traj 2 2 (fun l => l.headD 0) id id (fun _ => 1) 0).toB =
      some 0 :=
  ⟨(C7_round_robin 2 2 (fun l => l.headD 0) id id (fun _ => 1)).1,
   (C7_round_robin 2 2 (fun l => l.headD 0) id id (fun _ => 1)).2 0 (by decide)⟩

/-!
## ThompsonSampling (bandit_algorithms.py)

Beta-posterior state on top of the base class.  `scipy.stats.beta.ppf`
is external code, so the quantile function is an explicit parameter
`ppf q a b`; the confidence-interval property is proved for every
`ppf` that maps `[0, 1]` into `[0, 1]` monotonically in `q` (true of
the Beta quantile).
-/

structure TS where
  toB : BanditState
  alpha : List ℚ
  beta : List ℚ
  deriving DecidableEq, Repr

/-- `ThompsonSampling.__init__`: `alpha = np.ones(n) * alpha_prior`,
`beta = np.ones(n) * beta_prior`. -/
def initTS (n : Nat) (alpha_prior beta_prior : ℚ) : TS :=
  ⟨initB n, List.replicate n (1 * alpha_prior), List.replicate n (1 * beta_prior)⟩

/-- `ThompsonSampling.reset`: base reset, then `alpha = np.ones(n)`
and `beta = np.ones(n)` — the constructor's priors are *not* used. -/
def TS.reset (ts : TS) : TS :=
  ⟨resetB ts.toB, List.replicate ts.toB.n_arms 1, List.replicate ts.toB.n_arms 1⟩

/-- `ThompsonSampling.get_confidence_intervals`: per-arm Beta
quantiles at `alpha_val = (1 - confidence)/2` and `1 - alpha_val`.
The source performs no validation of `confidence` whatsoever and
`scipy.stats.beta.ppf` never raises on out-of-range `q` (it returns
`nan`), so the body is always `Except.ok`; the `Except` wrapper only
records that no exception path exists. -/
def TS.get_confidence_intervals (ts : TS) (ppf : ℚ → ℚ → ℚ → ℚ)
    (confidence : ℚ) : Except PyErr (List ℚ × List ℚ) :=
  let alpha_val := (1 - confidence) / 2
  Except.ok
    ((List.range ts.toB.n_arms).map (fun arm =>
        ppf alpha_val (ts.alpha.getD arm 0) (ts.beta.getD arm 0)),
      (List.range ts.toB.n_arms).map (fun arm =>
        ppf (1 - alpha_val) (ts.alpha.getD arm 0) (ts.beta.getD arm 0)))

theorem replicate_eq_replicate_head {x y : ℚ} {n : Nat} (hn : 0 < n)
    (h : List.replicate n x = List.replicate n y) : x = y := by
  cases n with
  | zero => cases hn
  | succ m =>
    rw [List.replicate_succ, List.replicate_succ] at h
    exact (List.cons.injEq _ _ _ _ ▸ h).1

/-- C8: for every `ThompsonSampling(n, alpha_prior = a, beta_prior = b)`
with at least one arm, `reset()` sets every arm's `alpha` and `beta`
to exactly 1 — not to the constructor's `a` and `b` — so after a reset
the policy's prior differs from the constructed prior whenever
`a ≠ 1` or `b ≠ 1`. -/
theorem C8_reset_ignores_prior (n : Nat) (a b : ℚ) (hn : 0 < n) :
    (TS.reset (initTS n a b)).alpha = List.replicate n 1 ∧
    (TS.reset (initTS n a b)).beta = List.replicate n 1 ∧
    (a ≠ 1 ∨ b ≠ 1 →
      (TS.reset (initTS n a b)).alpha ≠ (initTS n a b).alpha ∨
      (TS.reset (initTS n a b)).beta ≠ (initTS n a b).beta) := by
  refine ⟨rfl, rfl, ?_⟩
  intro hab
  rcases hab with ha | hb
  · left
    intro h
    apply ha
    have := replicate_eq_replicate_head hn h
    linarith [this]
  · right
    intro h
    apply hb
    have := replicate_eq_replicate_head hn h
    linarith [this]

/-- C8, witness: `C8_reset_ignores_prior` at `n = 2`, priors `(3, 5)`. -/
theorem C8_witness :
    (TS.reset (initTS 2 3 5)).alpha ≠ (initTS 2 3 5).alpha ∨
    (TS.reset (initTS 2 3 5)).beta ≠ (initTS 2 3 5).beta :=
  (C8_reset_ignores_prior 2 3 5 (by decide)).2.2 (Or.inl (by norm_num))

/-- C4 (amended): `get_confidence_intervals` performs no validation at
all — it returns normally for *every* confidence value (there is no
`InvalidParameterError` anywhere in the code; out-of-range confidence
just produces nan bounds from scipy) — and for every confidence in
`(0, 1)` the returned per-arm bounds satisfy
`0 ≤ lower[arm] ≤ upper[arm] ≤ 1`, for every quantile function that is
monotone in `q` and maps `[0, 1]` into `[0, 1]`. -/
theorem C4_confidence_amended (ts : TS) (ppf : ℚ → ℚ → ℚ → ℚ)
    (confidence : ℚ) (h0 : 0 < confidence) (h1 : confidence < 1)
    (hrange : ∀ q a b, 0 ≤ q → q ≤ 1 → 0 ≤ ppf q a b ∧ ppf q a b ≤ 1)
    (hmono : ∀ q r a b, 0 ≤ q → r ≤ 1 → q ≤ r → ppf q a b ≤ ppf r a b) :
    (∀ conf : ℚ, (ts.get_confidence_intervals ppf conf).isOk = true) ∧
    (∀ lower upper,
      ts.get_confidence_intervals ppf confidence = Except.ok (lower, upper) →
      ∀ arm, arm < ts.toB.n_arms →
        0 ≤ lower.getD arm 0 ∧ lower.getD arm 0 ≤ upper.getD arm 0 ∧
          upper.getD arm 0 ≤ 1) := by
  constructor
  · intro conf
    rfl
  · intro lower upper heq arm harm
    have hpair : lower = (List.range ts.toB.n_arms).map (fun arm =>
          ppf ((1 - confidence) / 2) (ts.alpha.getD arm 0) (ts.beta.getD arm 0)) ∧
        upper = (List.range ts.toB.n_arms).map (fun arm =>
          ppf (1 - (1 - confidence) / 2) (ts.alpha.getD arm 0)
            (ts.beta.getD arm 0)) := by
      rw [TS.get_confidence_intervals] at heq
      injection heq with heq
      exact ⟨congrArg Prod.fst heq.symm, congrArg Prod.snd heq.symm⟩
    obtain ⟨hl, hu⟩ := hpair
    rw [hl, hu, getD_map_range harm, getD_map_range harm]
    have hav0 : 0 ≤ (1 - confidence) / 2 := by linarith
    have hav1 : (1 - confidence) / 2 ≤ 1 := by linarith
    have hbv0 : 0 ≤ 1 - (1 - confidence) / 2 := by linarith
    have hbv1 : 1 - (1 - confidence) / 2 ≤ 1 := by linarith
    have hle : (1 - confidence) / 2 ≤ 1 - (1 - confidence) / 2 := by linarith
    refine ⟨(hrange _ _ _ hav0 hav1).1, ?_, (hrange _ _ _ hbv0 hbv1).2⟩
    exact hmono _ _ _ _ hav0 hbv1 hle

/-- C4, counterexample to the claim as stated: `confidence = 2` lies
outside `(0, 1)` yet `get_confidence_intervals` returns normally
instead of raising `InvalidParameterError`. -/
theorem C4_counterexample :
    (TS.get_confidence_intervals (initTS 1 1 1) (fun q _ _ => q) 2).isOk
      = true := rfl

/-- C4, witness: `C4_confidence_amended` with the identity quantile
function (monotone, maps `[0,1]` into itself), one arm, priors
`(2, 3)` and `confidence = 1/2`: the bounds are `[1/4]` and `[3/4]`. -/
theorem C4_witness :
    0 ≤ ([(1 : ℚ)/4]).getD 0 0 ∧
    ([(1 : ℚ)/4]).getD 0 0 ≤ ([(3 : ℚ)/4]).getD 0 0 ∧
    ([(3 : ℚ)/4]).getD 0 0 ≤ 1 := by
  have h := C4_confidence_amended (initTS 1 2 3) (fun q _ _ => q) (1/2)
    (by norm_num) (by norm_num)
    (fun q a b hq0 hq1 => ⟨hq0, hq1⟩)
    (fun q r a b _ _ hqr => hqr)
  refine h.2 [1/4] [3/4] ?_ 0 (by decide)
  norm_num [TS.get_confidence_intervals, initTS, initB, List.range_succ]

/-!
## ContextualBandit (bandit_algorithms.py)

LinUCB with per-arm design matrix `A`, response vector `b` and derived
coefficients `theta`.  `np.linalg.solve` / `np.linalg.inv` fail exactly
on singular matrices, i.e. on `det = 0` in exact arithmetic; the
successful inverse is `det⁻¹ • adjugate`.  `np.sqrt` is the explicit
parameter `ssqrt`.
-/

structure CtxBandit (nA d : Nat) where
  A : Fin nA → Matrix (Fin d) (Fin d) ℚ
  b : Fin nA → Fin d → ℚ
  theta : Fin nA → Fin d → ℚ
  alpha : ℚ
  counts : Fin nA → ℚ
  total_pulls : Nat
  total_reward : ℚ
  rewards_history : List ℚ
  arm_history : List Nat

/-- `ContextualBandit.__init__`: `A = identity(d) * alpha`, `b = 0`,
`theta = 0` for every arm. -/
def initCtx (nA d : Nat) (alpha : ℚ) : CtxBandit nA d :=
  ⟨fun _ => alpha • (1 : Matrix (Fin d) (Fin d) ℚ), fun _ _ => 0, fun _ _ => 0,
    alpha, fun _ => 0, 0, 0, [], []⟩

/-- `np.linalg.inv` on a nonsingular matrix. -/
def matInv {d : Nat} (M : Matrix (Fin d) (Fin d) ℚ) : Matrix (Fin d) (Fin d) ℚ :=
  M.det⁻¹ • M.adjugate

/-- The `try: solve / except: zeros` block of `select_arm`:
`np.linalg.solve(A, b)` raises `LinAlgError` exactly when `A` is
singular, in which case `theta` falls back to the zero vector. -/
def solveOrZero {d : Nat} (M : Matrix (Fin d) (Fin d) ℚ) (v : Fin d → ℚ) :
    Fin d → ℚ :=
  if M.det = 0 then 0 else (matInv M).mulVec v

/-- The per-arm loop of `ContextualBandit.select_arm`, threading the
mutable `theta` array and the accumulated score list; with `use_ucb`
the uncaught `np.linalg.inv(A[arm])` raises `LinAlgError` on a
singular design matrix (after `theta[arm]` was already overwritten by
the caught solve fallback). -/
def selGo {nA d : Nat} (ctx : Fin d → ℚ) (ucb : Bool) (ssqrt : ℚ → ℚ)
    (alpha : ℚ) (A : Fin nA → Matrix (Fin d) (Fin d) ℚ)
    (bv : Fin nA → Fin d → ℚ) :
    List (Fin nA) → (Fin nA → Fin d → ℚ) → List ℚ →
      (Fin nA → Fin d → ℚ) × Except PyErr (List ℚ)
  | [], theta, scores => (theta, Except.ok scores)
  | arm :: rest, theta, scores =>
    let th := solveOrZero (A arm) (bv arm)
    let theta' := Function.update theta arm th
    if ucb then
      if (A arm).det = 0 then (theta', Except.error PyErr.linAlgError)
      else
        selGo ctx ucb ssqrt alpha A bv rest theta'
          (scores ++ [Matrix.dotProduct th ctx +
            alpha * ssqrt (Matrix.dotProduct ctx ((matInv (A arm)).mulVec ctx))])
    else
      selGo ctx ucb ssqrt alpha A bv rest theta' (scores ++ [Matrix.dotProduct th ctx])

/-- `np.argmax(scores)` applied to the loop outcome: a raised error
propagates; an empty score array raises `ValueError`; otherwise the
first maximizer is returned. -/
def argmaxOutcome (scores : Except PyErr (List ℚ)) : Except PyErr Nat :=
  match scores with
  | Except.ok s =>
    if s.isEmpty then Except.error PyErr.valueError
    else Except.ok (argmaxFirst s)
  | Except.error e => Except.error e

/-- `ContextualBandit.select_arm`: run the per-arm loop over all arms
(mutating `theta` as a side effect), then `np.argmax(scores)` — which
raises `ValueError` on an empty score array (`n_arms = 0`).  Returns
the post-call state together with the outcome. -/
def CtxBandit.select_arm {nA d : Nat} (cb : CtxBandit nA d) (ctx : Fin d → ℚ)
    (use_ucb : Bool) (ssqrt : ℚ → ℚ) : CtxBandit nA d × Except PyErr Nat :=
  ({ cb with theta :=
      (selGo ctx use_ucb ssqrt cb.alpha cb.A cb.b (List.finRange nA) cb.theta []).1 },
    argmaxOutcome
      (selGo ctx use_ucb ssqrt cb.alpha cb.A cb.b (List.finRange nA) cb.theta []).2)

/-- `ContextualBandit.update`: rank-one update of the selected arm's
design matrix and response vector, plus the shared bookkeeping. -/
def CtxBandit.update {nA d : Nat} (cb : CtxBandit nA d) (arm : Fin nA)
    (ctx : Fin d → ℚ) (reward : ℚ) : CtxBandit nA d :=
  { cb with
    A := Function.update cb.A arm (cb.A arm + Matrix.of (fun i j => ctx i * ctx j))
    b := Function.update cb.b arm (fun i => cb.b arm i + reward * ctx i)
    counts := Function.update cb.counts arm (cb.counts arm + 1)
    total_pulls := cb.total_pulls + 1
    total_reward := cb.total_reward + reward
    rewards_history := cb.rewards_history ++ [reward]
    arm_history := cb.arm_history ++ [arm.val] }

/-- The `average_reward` field of `ContextualBandit.get_metrics`. -/
def CtxBandit.average_reward {nA d : Nat} (cb : CtxBandit nA d) : ℚ :=
  cb.total_reward / max 1 (cb.total_pulls : ℚ)

theorem selGo_false_snd {nA d : Nat} (ctx : Fin d → ℚ) (ssqrt : ℚ → ℚ)
    (alpha : ℚ) (A : Fin nA → Matrix (Fin d) (Fin d) ℚ)
    (bv : Fin nA → Fin d → ℚ) :
    ∀ (l : List (Fin nA)) (theta : Fin nA → Fin d → ℚ) (scores : List ℚ),
      (selGo ctx false ssqrt alpha A bv l theta scores).2 =
        Except.ok (scores ++
          l.map (fun arm => Matrix.dotProduct (solveOrZero (A arm) (bv arm)) ctx)) := by
  intro l
  induction l with
  | nil => intro theta scores; simp [selGo]
  | cons arm rest ih =>
    intro theta scores
    rw [selGo]
    simp only [Bool.false_eq_true, if_false]
    rw [ih]
    simp

theorem selGo_true_snd_ok {nA d : Nat} (ctx : Fin d → ℚ) (ssqrt : ℚ → ℚ)
    (alpha : ℚ) (A : Fin nA → Matrix (Fin d) (Fin d) ℚ)
    (bv : Fin nA → Fin d → ℚ) :
    ∀ (l : List (Fin nA)) (theta : Fin nA → Fin d → ℚ) (scores : List ℚ),
      (∀ a ∈ l, (A a).det ≠ 0) →
      (selGo ctx true ssqrt alpha A bv l theta scores).2 =
        Except.ok (scores ++
          l.map (fun arm => Matrix.dotProduct (solveOrZero (A arm) (bv arm)) ctx +
            alpha * ssqrt (Matrix.dotProduct ctx ((matInv (A arm)).mulVec ctx)))) := by
  intro l
  induction l with
  | nil => intro theta scores _; simp [selGo]
  | cons arm rest ih =>
    intro theta scores hnz
    rw [selGo]
    simp only [if_true]
    rw [if_neg (hnz arm (List.mem_cons_self arm rest))]
    rw [ih _ _ (fun a ha => hnz a (List.mem_cons_of_mem arm ha))]
    simp

theorem selGo_true_snd_err {nA d : Nat} (ctx : Fin d → ℚ) (ssqrt : ℚ → ℚ)
    (alpha : ℚ) (A : Fin nA → Matrix (Fin d) (Fin d) ℚ)
    (bv : Fin nA → Fin d → ℚ) :
    ∀ (l : List (Fin nA)) (theta : Fin nA → Fin d → ℚ) (scores : List ℚ),
      (∃ a ∈ l, (A a).det = 0) →
      (selGo ctx true ssqrt alpha A bv l theta scores).2 =
        Except.error PyErr.linAlgError := by
  intro l
  induction l with
  | nil =>
    intro theta scores h
    obtain ⟨a, ha, _⟩ := h
    cases ha
  | cons arm rest ih =>
    intro theta scores h
    rw [selGo]
    simp only [if_true]
    by_cases hz : (A arm).det = 0
    · rw [if_pos hz]
    · rw [if_neg hz]
      apply ih
      obtain ⟨a, ha, haz⟩ := h
      rcases List.mem_cons.mp ha with h1 | h1
      · exact absurd (h1 ▸ haz) hz
      · exact ⟨a, h1, haz⟩

theorem selGo_fst_of_ok {nA d : Nat} (ctx : Fin d → ℚ) (ucb : Bool)
    (ssqrt : ℚ → ℚ) (alpha : ℚ) (A : Fin nA → Matrix (Fin d) (Fin d) ℚ)
    (bv : Fin nA → Fin d → ℚ) :
    ∀ (l : List (Fin nA)) (theta : Fin nA → Fin d → ℚ) (scores : List ℚ),
      (selGo ctx ucb ssqrt alpha A bv l theta scores).2.isOk = true →
      ∀ a, (selGo ctx ucb ssqrt alpha A bv l theta scores).1 a =
        if a ∈ l then solveOrZero (A a) (bv a) else theta a := by
  intro l
  induction l with
  | nil =>
    intro theta scores _ a
    simp [selGo]
  | cons arm rest ih =>
    intro theta scores hok a
    rw [selGo] at hok ⊢
    cases ucb with
    | false =>
      simp only [Bool.false_eq_true, if_false] at hok ⊢
      rw [ih _ _ hok a]
      by_cases hmem : a ∈ rest
      · rw [if_pos hmem, if_pos (List.mem_cons_of_mem arm hmem)]
      · rw [if_neg hmem]
        by_cases hae : a = arm
        · subst hae
          rw [if_pos (List.mem_cons_self a rest), Function.update_same]
        · rw [if_neg (by simp [hae, hmem]), Function.update_noteq hae]
    | true =>
      simp only [if_true] at hok ⊢
      by_cases hz : (A arm).det = 0
      · rw [if_pos hz] at hok
        simp [Except.isOk, Except.toBool] at hok
      · rw [if_neg hz] at hok ⊢
        rw [ih _ _ hok a]
        by_cases hmem : a ∈ rest
        · rw [if_pos hmem, if_pos (List.mem_cons_of_mem arm hmem)]
        · rw [if_neg hmem]
          by_cases hae : a = arm
          · subst hae
            rw [if_pos (List.mem_cons_self a rest), Function.update_same]
          · rw [if_neg (by simp [hae, hmem]), Function.update_noteq hae]

theorem isEmpty_false_of_length_pos {l : List ℚ} (h : 0 < l.length) :
    l.isEmpty = false := by
  cases l with
  | nil => cases h
  | cons x xs => rfl

theorem argmaxOutcome_ok (s : List ℚ) :
    argmaxOutcome (Except.ok s) =
      if s.isEmpty then Except.error PyErr.valueError
      else Except.ok (argmaxFirst s) := rfl

theorem argmaxOutcome_err (e : PyErr) :
    argmaxOutcome (Except.error e) = Except.error e := rfl

theorem argmaxFirst_single (x : ℚ) : argmaxFirst [x] = 0 := by
  simp [argmaxFirst, listMax, List.findIdx_cons]

/-- C3 (amended): on the plain-score path (`use_ucb = False`, with at
least one arm) `select_arm` never raises — the coefficient solve falls
back to the zero vector on a singular design matrix and selection
completes and returns an arm.  On the exploration-bonus path
(`use_ucb = True`), however, the extra `np.linalg.inv(self.A[arm])`
sits *outside* the try/except, so selection completes iff no arm's
design matrix is singular, and raises `LinAlgError` whenever some
arm's matrix is singular. -/
theorem C3_select_arm_amended {nA d : Nat} (cb : CtxBandit nA d)
    (ctx : Fin d → ℚ) (ssqrt : ℚ → ℚ) (hnA : 0 < nA) :
    ((cb.select_arm ctx false ssqrt).2.isOk = true) ∧
    ((∀ a, (cb.A a).det ≠ 0) → (cb.select_arm ctx true ssqrt).2.isOk = true) ∧
    ((∃ a, (cb.A a).det = 0) →
      (cb.select_arm ctx true ssqrt).2 = Except.error PyErr.linAlgError) := by
  refine ⟨?_, ?_, ?_⟩
  · simp only [CtxBandit.select_arm]
    rw [selGo_false_snd, argmaxOutcome_ok,
      isEmpty_false_of_length_pos (by simpa using hnA)]
    rfl
  · intro hall
    simp only [CtxBandit.select_arm]
    rw [selGo_true_snd_ok _ _ _ _ _ _ _ _ (fun a _ => hall a), argmaxOutcome_ok,
      isEmpty_false_of_length_pos (by simpa using hnA)]
    rfl
  · intro hex
    obtain ⟨a, ha⟩ := hex
    simp only [CtxBandit.select_arm]
    rw [selGo_true_snd_err _ _ _ _ _ _ _ _ ⟨a, List.mem_finRange a, ha⟩,
      argmaxOutcome_err]

/-- C3, counterexample to the claim as stated: the one-arm, one-feature
contextual bandit constructed with regularization `alpha = 0` has the
singular design matrix `A = [[0]]`; `select_arm` with the
exploration bonus (`use_ucb = True`, the default) raises `LinAlgError`
instead of recovering, while the plain path completes. -/
theorem C3_counterexample :
    ((initCtx 1 1 0).select_arm (fun _ => 1) true id).2 =
      Except.error PyErr.linAlgError ∧
    ((initCtx 1 1 0).select_arm (fun _ => 1) false id).2.isOk = true := by
  have hdet : ((initCtx 1 1 0).A 0).det = 0 := by
    simp [initCtx, Matrix.det_fin_one]
  constructor
  · simp only [CtxBandit.select_arm]
    rw [selGo_true_snd_err _ _ _ _ _ _ _ _ ⟨0, List.mem_finRange 0, hdet⟩,
      argmaxOutcome_err]
  · simp only [CtxBandit.select_arm]
    rw [selGo_false_snd, argmaxOutcome_ok,
      isEmpty_false_of_length_pos (by simp)]
    rfl

/-- C3, witness: `C3_select_arm_amended` on the default-regularized
(`alpha = 1`, nonsingular) one-arm instance: both paths complete. -/
theorem C3_witness :
    ((initCtx 1 1 1).select_arm (fun _ => 1) false id).2.isOk = true ∧
    ((initCtx 1 1 1).select_arm (fun _ => 1) true id).2.isOk = true := by
  have h := C3_select_arm_amended (initCtx 1 1 1) (fun _ => 1) id (by decide)
  refine ⟨h.1, h.2.1 ?_⟩
  intro a
  simp [initCtx, Matrix.det_fin_one, Matrix.smul_apply, Matrix.one_apply_eq]

/-- C9: for every contextual-bandit state, context, and both values of
`use_ucb`, `select_arm` leaves the design matrices `A`, response
vectors `b`, `counts`, `total_pulls`, `total_reward` and both
histories unchanged; and whenever it completes with an arm, it has
recomputed the stored coefficient estimate `theta[a]` of *every* arm
`a` as the solve-or-zero of that arm's current `(A, b)` — the mutation
of `theta` is a side effect of selection. -/
theorem C9_select_arm_theta_only {nA d : Nat} (cb : CtxBandit nA d)
    (ctx : Fin d → ℚ) (ucb : Bool) (ssqrt : ℚ → ℚ) :
    ((cb.select_arm ctx ucb ssqrt).1.A = cb.A ∧
      (cb.select_arm ctx ucb ssqrt).1.b = cb.b ∧
      (cb.select_arm ctx ucb ssqrt).1.counts = cb.counts ∧
      (cb.select_arm ctx ucb ssqrt).1.total_pulls = cb.total_pulls ∧
      (cb.select_arm ctx ucb ssqrt).1.total_reward = cb.total_reward ∧
      (cb.select_arm ctx ucb ssqrt).1.rewards_history = cb.rewards_history ∧
      (cb.select_arm ctx ucb ssqrt).1.arm_history = cb.arm_history ∧
      (cb.select_arm ctx ucb ssqrt).1.alpha = cb.alpha) ∧
    (∀ r, (cb.select_arm ctx ucb ssqrt).2 = Except.ok r →
      ∀ a, (cb.select_arm ctx ucb ssqrt).1.theta a =
        solveOrZero (cb.A a) (cb.b a)) := by
  refine ⟨⟨rfl, rfl, rfl, rfl, rfl, rfl, rfl, rfl⟩, ?_⟩
  intro r hr a
  cases hsnd : (selGo ctx ucb ssqrt cb.alpha cb.A cb.b (List.finRange nA)
      cb.theta []).2 with
  | error e =>
    exfalso
    simp only [CtxBandit.select_arm, hsnd, argmaxOutcome_err] at hr
    cases hr
  | ok scores =>
    have hok : (selGo ctx ucb ssqrt cb.alpha cb.A cb.b (List.finRange nA)
        cb.theta []).2.isOk = true := by
      rw [hsnd]; rfl
    have h := selGo_fst_of_ok ctx ucb ssqrt cb.alpha cb.A cb.b
      (List.finRange nA) cb.theta [] hok a
    rw [if_pos (List.mem_finRange a)] at h
    simpa only [CtxBandit.select_arm] using h

/-- C9, witness: `C9_select_arm_theta_only` on the one-arm instance,
whose plain-path selection returns arm 0 and recomputes `theta 0`. -/
theorem C9_witness :
    ((initCtx 1 1 1).select_arm (fun _ => 1) false id).1.A =
      (initCtx 1 1 1).A ∧
    ((initCtx 1 1 1).select_arm (fun _ => 1) false id).1.theta 0 =
      solveOrZero ((initCtx 1 1 1).A 0) ((initCtx 1 1 1).b 0) := by
  have h := C9_select_arm_theta_only (initCtx 1 1 1) (fun _ => 1) false id
  have hsnd : ((initCtx 1 1 1).select_arm (fun _ => 1) false id).2 =
      Except.ok 0 := by
    simp only [CtxBandit.select_arm]
    have h1 : List.finRange 1 = [(0 : Fin 1)] := rfl
    rw [selGo_false_snd, List.nil_append, h1, List.map_cons, List.map_nil,
      argmaxOutcome_ok]
    simp [argmaxFirst_single]
  exact ⟨h.1.1, h.2 0 hsnd 0⟩

/-- Run a sequence of contextual `update(arm, context, reward)` calls. -/
def applyCtxU {nA d : Nat} (cb : CtxBandit nA d)
    (us : List (Fin nA × (Fin d → ℚ) × ℚ)) : CtxBandit nA d :=
  us.foldl (fun t u => t.update u.1 u.2.1 u.2.2) cb

theorem applyCtxU_totals {nA d : Nat} (us : List (Fin nA × (Fin d → ℚ) × ℚ)) :
    ∀ cb : CtxBandit nA d,
      (applyCtxU cb us).total_pulls = cb.total_pulls + us.length ∧
      (applyCtxU cb us).total_reward =
        cb.total_reward + (us.map (fun u => u.2.2)).sum := by
  induction us with
  | nil => intro cb; simp [applyCtxU]
  | cons u rest ih =>
    intro cb
    have h := ih (cb.update u.1 u.2.1 u.2.2)
    constructor
    · rw [show applyCtxU cb (u :: rest) =
        applyCtxU (cb.update u.1 u.2.1 u.2.2) rest from rfl, h.1]
      simp [CtxBandit.update]
      omega
    · rw [show applyCtxU cb (u :: rest) =
        applyCtxU (cb.update u.1 u.2.1 u.2.2) rest from rfl, h.2]
      simp [CtxBandit.update]
      ring

/-- C10: the `average_reward` reported by `get_metrics` never divides
by zero — its denominator `max(1, total_pulls)` is positive for every
state of either class — and on every run from a fresh policy it equals
`total reward / max(1, number of updates)`; in particular it is `0` on
the initial states, where nothing was pulled. -/
theorem C10_average_reward (n : Nat) (us : List (Nat × ℚ))
    {nA d : Nat} (cus : List (Fin nA × (Fin d → ℚ) × ℚ)) (alphareg : ℚ)
    (hv : ∀ u ∈ us, u.1 < n) :
    average_reward (applyU (initB n) us) =
      (us.map Prod.snd).sum / max 1 (us.length : ℚ) ∧
    average_reward (initB n) = 0 ∧
    CtxBandit.average_reward (applyCtxU (initCtx nA d alphareg) cus) =
      (cus.map (fun u => u.2.2)).sum / max 1 (cus.length : ℚ) ∧
    CtxBandit.average_reward (initCtx nA d alphareg) = 0 ∧
    (∀ s : BanditState, (0 : ℚ) < max 1 (s.total_pulls : ℚ)) ∧
    (∀ cb : CtxBandit nA d, (0 : ℚ) < max 1 (cb.total_pulls : ℚ)) := by
  obtain ⟨-, -, -, hp, hr, -⟩ := applyU_inv n us hv
  refine ⟨?_, ?_, ?_, ?_, ?_, ?_⟩
  · rw [average_reward, hp, hr]
  · rw [average_reward]
    norm_num [initB]
  · obtain ⟨hcp, hcr⟩ := applyCtxU_totals cus (initCtx nA d alphareg)
    rw [CtxBandit.average_reward, hcp, hcr]
    norm_num [initCtx]
  · rw [CtxBandit.average_reward]
    norm_num [initCtx]
  · intro s
    exact lt_max_of_lt_left one_pos
  · intro cb
    exact lt_max_of_lt_left one_pos

/-- C10, witness: `C10_average_reward` on the run `update(0, 1)` from
a fresh one-arm policy and the empty contextual run. -/
theorem C10_witness :
    average_reward (applyU (initB 1) [(0, 1)]) =
      (([((0 : Nat), (1 : ℚ))]).map Prod.snd).sum /
        max 1 (([((0 : Nat), (1 : ℚ))]).length : ℚ) ∧
    average_reward (initB 1) = 0 ∧
    CtxBandit.average_reward
        (applyCtxU (initCtx 1 1 1) ([] : List (Fin 1 × (Fin 1 → ℚ) × ℚ))) =
      (([] : List (Fin 1 × (Fin 1 → ℚ) × ℚ)).map (fun u => u.2.2)).sum /
        max 1 ((([] : List (Fin 1 × (Fin 1 → ℚ) × ℚ)).length : ℚ)) ∧
    CtxBandit.average_reward (initCtx 1 1 1) = 0 ∧
    (∀ s : BanditState, (0 : ℚ) < max 1 (s.total_pulls : ℚ)) ∧
    (∀ cb : CtxBandit 1 1, (0 : ℚ) < max 1 (cb.total_pulls : ℚ)) :=
  C10_average_reward 1 [(0, 1)] ([] : List (Fin 1 × (Fin 1 → ℚ) × ℚ)) 1
    (by decide)

end MAB
